import Mathlib

/-!
# Verification of the `chstr!` compile-time UTF-8 encoder

This file embeds the Rust macro `chstr!` from `src/lib.rs` of the `chstr`
crate.  The macro turns a `char` array into a constant `&str` in two
compile-time passes:

* a length pass `LEN` summing `c.len_utf8()` over the input characters, and
* an encode pass `BUF` that walks the characters once more, writing the
  UTF-8 bytes of each character into a zero-initialised buffer of length
  `LEN` at a running `offset`, via a `match` on `c.len_utf8()` whose
  wildcard arm is `unreachable!()`.

The embedding models Unicode scalar values as natural numbers (`IsScalar`
captures the range guaranteed by Rust's `char` type), bytes as natural
numbers below 256, and the buffer as a `List Nat`.  Buffer writes are
fallible (`writeByte` returns `none` out of bounds, matching the fact that
an out-of-bounds `buf[i] = _` is a const-evaluation failure in Rust), and
the `unreachable!()` arm is modelled as `none`.  The text value produced by
`from_utf8_unchecked` is identified with the byte buffer itself.
-/

namespace Chstr

/-- UTF-8 continuation-byte tag `0b10000000` (from `src/lib.rs`). -/
def TAG_CONT : Nat := 0b10000000

/-- Two-byte leading tag `0b11000000` (from `src/lib.rs`). -/
def TAG_TWO_B : Nat := 0b11000000

/-- Three-byte leading tag `0b11100000` (from `src/lib.rs`). -/
def TAG_THREE_B : Nat := 0b11100000

/-- Four-byte leading tag `0b11110000` (from `src/lib.rs`). -/
def TAG_FOUR_B : Nat := 0b11110000

/-- Model of Rust `core`'s `char::len_utf8` (`len_utf8_const` in `core`):
`if code < 0x80 { 1 } else if code < 0x800 { 2 } else if code < 0x10000
{ 3 } else { 4 }`.  This is the function both passes of the macro call. -/
def len_utf8 (code : Nat) : Nat :=
  if code < 0x80 then 1
  else if code < 0x800 then 2
  else if code < 0x10000 then 3
  else 4

/-- The values representable by Rust's `char` type: Unicode scalar values,
i.e. code points at most `0x10FFFF` excluding the surrogate range
`0xD800 ..= 0xDFFF`. -/
def IsScalar (c : Nat) : Prop :=
  c ≤ 0x10FFFF ∧ (c < 0xD800 ∨ 0xDFFF < c)

instance (c : Nat) : Decidable (IsScalar c) := by
  unfold IsScalar; infer_instance

/-- The length pass of the macro: `let mut len = 0; while i < N { len +=
CHARS[i].len_utf8(); i += 1; }` — a left fold of `+ len_utf8` over the
character sequence. -/
def LEN (cs : List Nat) : Nat :=
  cs.foldl (fun acc c => acc + len_utf8 c) 0

/-- A single buffer store `buf[i] = v`.  In Rust's const context an
out-of-bounds index aborts compilation, modelled here by `none`. -/
def writeByte (buf : List Nat) (i v : Nat) : Option (List Nat) :=
  if i < buf.length then some (buf.set i v) else none

/-- The body of the encode loop for one character `c` (the `match len`
statement of `src/lib.rs`, lines 61–81): writes the UTF-8 bytes of `c`
at `offset`.  Each arm mirrors the source byte for byte; `as u8` casts
are `% 256`; the wildcard arm `unreachable!()` is `none`. -/
def encodeAt (buf : List Nat) (offset code : Nat) : Option (List Nat) :=
  match len_utf8 code with
  | 1 =>
      writeByte buf (offset + 0) (code % 256)
  | 2 => do
      let b0 ← writeByte buf (offset + 0) ((code >>> 6 &&& 0x1F) % 256 ||| TAG_TWO_B)
      writeByte b0 (offset + 1) ((code &&& 0x3F) % 256 ||| TAG_CONT)
  | 3 => do
      let b0 ← writeByte buf (offset + 0) ((code >>> 12 &&& 0x0F) % 256 ||| TAG_THREE_B)
      let b1 ← writeByte b0 (offset + 1) ((code >>> 6 &&& 0x3F) % 256 ||| TAG_CONT)
      writeByte b1 (offset + 2) ((code &&& 0x3F) % 256 ||| TAG_CONT)
  | 4 => do
      let b0 ← writeByte buf (offset + 0) ((code >>> 18 &&& 0x07) % 256 ||| TAG_FOUR_B)
      let b1 ← writeByte b0 (offset + 1) ((code >>> 12 &&& 0x3F) % 256 ||| TAG_CONT)
      let b2 ← writeByte b1 (offset + 2) ((code >>> 6 &&& 0x3F) % 256 ||| TAG_CONT)
      writeByte b2 (offset + 3) ((code &&& 0x3F) % 256 ||| TAG_CONT)
  | _ => none

/-- The encode loop of `BUF`: for each character, encode it at `offset`
and advance `offset` by its UTF-8 length.  Returns the final buffer
together with the final value of `offset`. -/
def encodeLoop (buf : List Nat) (offset : Nat) : List Nat → Option (List Nat × Nat)
  | [] => some (buf, offset)
  | c :: rest => do
      let b ← encodeAt buf offset c
      encodeLoop b (offset + len_utf8 c) rest

/-- The whole macro: run the encode loop on a zero-initialised buffer of
length `LEN cs` and return the resulting byte buffer (the bytes of the
`&str` produced by `from_utf8_unchecked`). -/
def chstr (cs : List Nat) : Option (List Nat) :=
  (encodeLoop (List.replicate (LEN cs) 0) 0 cs).map Prod.fst

/-- The flat list of UTF-8 bytes one character contributes to the buffer:
the byte values of the arms of `encodeAt`, in write order (wildcard arm:
no bytes). -/
def utf8b (code : Nat) : List Nat :=
  match len_utf8 code with
  | 1 => [code % 256]
  | 2 => [(code >>> 6 &&& 0x1F) % 256 ||| TAG_TWO_B,
          (code &&& 0x3F) % 256 ||| TAG_CONT]
  | 3 => [(code >>> 12 &&& 0x0F) % 256 ||| TAG_THREE_B,
          (code >>> 6 &&& 0x3F) % 256 ||| TAG_CONT,
          (code &&& 0x3F) % 256 ||| TAG_CONT]
  | 4 => [(code >>> 18 &&& 0x07) % 256 ||| TAG_FOUR_B,
          (code >>> 12 &&& 0x3F) % 256 ||| TAG_CONT,
          (code >>> 6 &&& 0x3F) % 256 ||| TAG_CONT,
          (code &&& 0x3F) % 256 ||| TAG_CONT]
  | _ => []

/-- Flat concatenation of the per-character bytes of a sequence. -/
def utf8Flat (cs : List Nat) : List Nat :=
  cs.foldr (fun c acc => utf8b c ++ acc) []

/-- Sum of the per-character UTF-8 lengths of a sequence. -/
def flatLen (cs : List Nat) : Nat :=
  (cs.map len_utf8).sum

/-- The buffer indices written by the `match` arms of `encodeAt` for one
character, in write order: `offset + 0, …, offset + (len - 1)`. -/
def armIndices (offset len : Nat) : List Nat :=
  match len with
  | 1 => [offset + 0]
  | 2 => [offset + 0, offset + 1]
  | 3 => [offset + 0, offset + 1, offset + 2]
  | 4 => [offset + 0, offset + 1, offset + 2, offset + 3]
  | _ => []

/-- The sequence of buffer indices written by the encode loop, in order. -/
def traceLoop (offset : Nat) : List Nat → List Nat
  | [] => []
  | c :: rest => armIndices offset (len_utf8 c) ++ traceLoop (offset + len_utf8 c) rest

/-- One step of the strict UTF-8 decoder, used to state the spec's
round-trip and minimality properties.  Modelled from the spec: given the
first byte `b0` and the remaining bytes, decodes one scalar value per the
standard UTF-8 table and returns it with the bytes left over, rejecting
truncated sequences, bad continuation bytes, overlong (non-minimal)
encodings, surrogate code points and code points above `0x10FFFF`. -/
def decodeStep (b0 : Nat) (rest : List Nat) : Option (Nat × List Nat) :=
  if b0 < 0x80 then some (b0, rest)
  else if b0 < 0xC0 then none
  else if b0 < 0xE0 then
    match rest with
    | b1 :: rest2 =>
      if 0x80 ≤ b1 ∧ b1 < 0xC0 then
        let c := (b0 - 0xC0) * 64 + (b1 - 0x80)
        if 0x80 ≤ c then some (c, rest2) else none
      else none
    | [] => none
  else if b0 < 0xF0 then
    match rest with
    | b1 :: b2 :: rest3 =>
      if (0x80 ≤ b1 ∧ b1 < 0xC0) ∧ (0x80 ≤ b2 ∧ b2 < 0xC0) then
        let c := (b0 - 0xE0) * 4096 + (b1 - 0x80) * 64 + (b2 - 0x80)
        if 0x800 ≤ c ∧ (c < 0xD800 ∨ 0xDFFF < c) then some (c, rest3) else none
      else none
    | _ => none
  else if b0 < 0xF8 then
    match rest with
    | b1 :: b2 :: b3 :: rest4 =>
      if (0x80 ≤ b1 ∧ b1 < 0xC0) ∧ (0x80 ≤ b2 ∧ b2 < 0xC0) ∧ (0x80 ≤ b3 ∧ b3 < 0xC0) then
        let c := (b0 - 0xF0) * 262144 + (b1 - 0x80) * 4096 + (b2 - 0x80) * 64 + (b3 - 0x80)
        if 0x10000 ≤ c ∧ c ≤ 0x10FFFF then some (c, rest4) else none
      else none
    | _ => none
  else none

/-- Iterate `decodeStep` over a byte list.  `fuel` bounds the number of
decoded scalars; since every step consumes at least one byte, fuel equal
to the byte count is always enough (`decodeLoop_fuel`). -/
def decodeLoop : Nat → List Nat → Option (List Nat)
  | _, [] => some []
  | 0, _ :: _ => none
  | fuel + 1, b0 :: rest =>
    match decodeStep b0 rest with
    | some (c, rest2) =>
      match decodeLoop fuel rest2 with
      | some cs => some (c :: cs)
      | none => none
    | none => none

/-- The strict UTF-8 decoder: decode a byte list left to right. -/
def decodeUtf8 (bs : List Nat) : Option (List Nat) :=
  decodeLoop bs.length bs

/-- The per-character length rule exactly as the spec words it: ≤ 0x7F →
1 byte, ≤ 0x7FF → 2, ≤ 0xFFFF → 3, ≤ 0x10FFFF → 4 (and 0 outside the
spec's domain). -/
def utf8LenSpec (c : Nat) : Nat :=
  if c ≤ 0x7F then 1
  else if c ≤ 0x7FF then 2
  else if c ≤ 0xFFFF then 3
  else if c ≤ 0x10FFFF then 4
  else 0

/-- The UTF-8 tagging scheme exactly as the spec words it: the 1-byte form
is the code point; the 2-byte form is `0b110xxxxx` from bits 6–10 then a
continuation from bits 0–5; the 3-byte form is `0b1110xxxx` from bits
12–15 then continuations from bits 6–11 and 0–5; the 4-byte form is
`0b11110xxx` from bits 18–20 then continuations from bits 12–17, 6–11
and 0–5. -/
def utf8BytesSpec (c : Nat) : List Nat :=
  if c ≤ 0x7F then [c]
  else if c ≤ 0x7FF then
    [0b11000000 ||| (c >>> 6 &&& 0b11111),
     0b10000000 ||| (c &&& 0b111111)]
  else if c ≤ 0xFFFF then
    [0b11100000 ||| (c >>> 12 &&& 0b1111),
     0b10000000 ||| (c >>> 6 &&& 0b111111),
     0b10000000 ||| (c &&& 0b111111)]
  else
    [0b11110000 ||| (c >>> 18 &&& 0b111),
     0b10000000 ||| (c >>> 12 &&& 0b111111),
     0b10000000 ||| (c >>> 6 &&& 0b111111),
     0b10000000 ||| (c &&& 0b111111)]

/-! ### Arithmetic helper lemmas for the bit operations of the encoder -/

lemma and_63 (x : Nat) : x &&& 0x3F = x % 64 := by
  have h := Nat.and_pow_two_sub_one_eq_mod x 6
  norm_num at h
  exact h

lemma and_31 (x : Nat) : x &&& 0x1F = x % 32 := by
  have h := Nat.and_pow_two_sub_one_eq_mod x 5
  norm_num at h
  exact h

lemma and_15 (x : Nat) : x &&& 0x0F = x % 16 := by
  have h := Nat.and_pow_two_sub_one_eq_mod x 4
  norm_num at h
  exact h

lemma and_7 (x : Nat) : x &&& 0x07 = x % 8 := by
  have h := Nat.and_pow_two_sub_one_eq_mod x 3
  norm_num at h
  exact h

lemma shr_6 (x : Nat) : x >>> 6 = x / 64 := by
  have h := Nat.shiftRight_eq_div_pow x 6
  norm_num at h
  exact h

lemma shr_12 (x : Nat) : x >>> 12 = x / 4096 := by
  have h := Nat.shiftRight_eq_div_pow x 12
  norm_num at h
  exact h

lemma shr_18 (x : Nat) : x >>> 18 = x / 262144 := by
  have h := Nat.shiftRight_eq_div_pow x 18
  norm_num at h
  exact h

lemma lor_cont (a : Nat) (h : a < 64) : a ||| TAG_CONT = 128 + a := by
  unfold TAG_CONT
  interval_cases a <;> rfl

lemma lor_two (a : Nat) (h : a < 32) : a ||| TAG_TWO_B = 192 + a := by
  unfold TAG_TWO_B
  interval_cases a <;> rfl

lemma lor_three (a : Nat) (h : a < 16) : a ||| TAG_THREE_B = 224 + a := by
  unfold TAG_THREE_B
  interval_cases a <;> rfl

lemma lor_four (a : Nat) (h : a < 8) : a ||| TAG_FOUR_B = 240 + a := by
  unfold TAG_FOUR_B
  interval_cases a <;> rfl

/-! ### Case analysis of `len_utf8` -/

lemma len_utf8_one {c : Nat} (h : c < 0x80) : len_utf8 c = 1 := by
  unfold len_utf8
  rw [if_pos h]

lemma len_utf8_two {c : Nat} (h1 : 0x80 ≤ c) (h2 : c < 0x800) : len_utf8 c = 2 := by
  unfold len_utf8
  rw [if_neg (by omega), if_pos h2]

lemma len_utf8_three {c : Nat} (h1 : 0x800 ≤ c) (h2 : c < 0x10000) : len_utf8 c = 3 := by
  unfold len_utf8
  rw [if_neg (by omega), if_neg (by omega), if_pos h2]

lemma len_utf8_four {c : Nat} (h1 : 0x10000 ≤ c) : len_utf8 c = 4 := by
  unfold len_utf8
  rw [if_neg (by omega), if_neg (by omega), if_neg (by omega)]

lemma len_utf8_cases (c : Nat) :
    len_utf8 c = 1 ∨ len_utf8 c = 2 ∨ len_utf8 c = 3 ∨ len_utf8 c = 4 := by
  unfold len_utf8
  split
  · exact Or.inl rfl
  split
  · exact Or.inr (Or.inl rfl)
  split
  · exact Or.inr (Or.inr (Or.inl rfl))
  · exact Or.inr (Or.inr (Or.inr rfl))

lemma len_utf8_pos (c : Nat) : 0 < len_utf8 c := by
  rcases len_utf8_cases c with h | h | h | h <;> omega

/-! ### Arithmetic form of the bytes of one character -/

lemma utf8b_one {c : Nat} (h : c < 0x80) : utf8b c = [c] := by
  unfold utf8b
  rw [len_utf8_one h]
  simp only []
  rw [Nat.mod_eq_of_lt (by omega)]

lemma utf8b_two {c : Nat} (h1 : 0x80 ≤ c) (h2 : c < 0x800) :
    utf8b c = [192 + c / 64, 128 + c % 64] := by
  unfold utf8b
  rw [len_utf8_two h1 h2]
  simp only [shr_6, and_31, and_63]
  rw [Nat.mod_eq_of_lt (show c / 64 % 32 < 256 by omega),
      Nat.mod_eq_of_lt (show c % 64 < 256 by omega),
      lor_two _ (by omega), lor_cont _ (by omega)]
  have : c / 64 % 32 = c / 64 := Nat.mod_eq_of_lt (by omega)
  rw [this]

lemma utf8b_three {c : Nat} (h1 : 0x800 ≤ c) (h2 : c < 0x10000) :
    utf8b c = [224 + c / 4096, 128 + c / 64 % 64, 128 + c % 64] := by
  unfold utf8b
  rw [len_utf8_three h1 h2]
  simp only [shr_6, shr_12, and_15, and_63]
  rw [Nat.mod_eq_of_lt (show c / 4096 % 16 < 256 by omega),
      Nat.mod_eq_of_lt (show c / 64 % 64 < 256 by omega),
      Nat.mod_eq_of_lt (show c % 64 < 256 by omega),
      lor_three _ (by omega), lor_cont (c / 64 % 64) (by omega), lor_cont _ (by omega)]
  have : c / 4096 % 16 = c / 4096 := Nat.mod_eq_of_lt (by omega)
  rw [this]

lemma utf8b_four {c : Nat} (h1 : 0x10000 ≤ c) (h2 : c ≤ 0x10FFFF) :
    utf8b c = [240 + c / 262144, 128 + c / 4096 % 64, 128 + c / 64 % 64, 128 + c % 64] := by
  unfold utf8b
  rw [len_utf8_four h1]
  simp only [shr_6, shr_12, shr_18, and_7, and_63]
  rw [Nat.mod_eq_of_lt (show c / 262144 % 8 < 256 by omega),
      Nat.mod_eq_of_lt (show c / 4096 % 64 < 256 by omega),
      Nat.mod_eq_of_lt (show c / 64 % 64 < 256 by omega),
      Nat.mod_eq_of_lt (show c % 64 < 256 by omega),
      lor_four _ (by omega), lor_cont (c / 4096 % 64) (by omega),
      lor_cont (c / 64 % 64) (by omega), lor_cont _ (by omega)]
  have : c / 262144 % 8 = c / 262144 := Nat.mod_eq_of_lt (by omega)
  rw [this]

lemma utf8b_length (c : Nat) : (utf8b c).length = len_utf8 c := by
  unfold utf8b
  rcases len_utf8_cases c with h | h | h | h <;> rw [h] <;> rfl

lemma length_eq_four {l : List Nat} (h : l.length = 4) :
    ∃ a b c d, l = [a, b, c, d] := by
  rcases l with _ | ⟨a, l⟩
  · simp at h
  rcases l with _ | ⟨b, l⟩
  · simp at h
  rcases l with _ | ⟨c, l⟩
  · simp at h
  rcases l with _ | ⟨d, l⟩
  · simp at h
  rcases l with _ | ⟨e, l⟩
  · exact ⟨a, b, c, d, rfl⟩
  · simp at h

/-! ### How one `encodeAt` call transforms the buffer -/

lemma set_append_cons (pre : List Nat) (x v : Nat) (l : List Nat) :
    (pre ++ x :: l).set pre.length v = pre ++ v :: l := by
  induction pre with
  | nil => rfl
  | cons a pre ih => simp only [List.cons_append, List.length_cons, List.set_cons_succ, ih]

lemma writeByte_at (pre : List Nat) (x v : Nat) (l : List Nat) :
    writeByte (pre ++ x :: l) pre.length v = some (pre ++ v :: l) := by
  unfold writeByte
  rw [if_pos (by simp : pre.length < (pre ++ x :: l).length), set_append_cons]

/-- Running the body of the encode loop for `c` at offset `pre.length` on a
buffer `pre ++ mid ++ post` (with `mid` of exactly the needed length)
replaces `mid` by the UTF-8 bytes of `c` and touches nothing else. -/
lemma encodeAt_spliced (pre mid post : List Nat) (c : Nat)
    (hmid : mid.length = len_utf8 c) :
    encodeAt (pre ++ mid ++ post) pre.length c = some (pre ++ utf8b c ++ post) := by
  unfold encodeAt utf8b
  rcases len_utf8_cases c with h | h | h | h <;> rw [h] <;> rw [h] at hmid <;> simp only []
  · -- 1-byte arm
    obtain ⟨m, rfl⟩ := List.length_eq_one.mp hmid
    rw [show pre ++ [m] ++ post = pre ++ m :: post by simp, Nat.add_zero, writeByte_at]
    simp
  · -- 2-byte arm
    obtain ⟨m0, m1, rfl⟩ := List.length_eq_two.mp hmid
    rw [show pre ++ [m0, m1] ++ post = pre ++ m0 :: m1 :: post by simp,
        Nat.add_zero, writeByte_at]
    simp only [Option.bind_eq_bind, Option.some_bind]
    rw [show pre ++ ((c >>> 6 &&& 0x1F) % 256 ||| TAG_TWO_B) :: m1 :: post =
          (pre ++ [(c >>> 6 &&& 0x1F) % 256 ||| TAG_TWO_B]) ++ m1 :: post by simp,
        show pre.length + 1 = (pre ++ [(c >>> 6 &&& 0x1F) % 256 ||| TAG_TWO_B]).length by simp,
        writeByte_at]
    simp
  · -- 3-byte arm
    obtain ⟨m0, m1, m2, rfl⟩ := List.length_eq_three.mp hmid
    rw [show pre ++ [m0, m1, m2] ++ post = pre ++ m0 :: m1 :: m2 :: post by simp,
        Nat.add_zero, writeByte_at]
    simp only [Option.bind_eq_bind, Option.some_bind]
    rw [show pre ++ ((c >>> 12 &&& 0x0F) % 256 ||| TAG_THREE_B) :: m1 :: m2 :: post =
          (pre ++ [(c >>> 12 &&& 0x0F) % 256 ||| TAG_THREE_B]) ++ m1 :: m2 :: post by simp,
        show pre.length + 1 =
          (pre ++ [(c >>> 12 &&& 0x0F) % 256 ||| TAG_THREE_B]).length by simp,
        writeByte_at]
    simp only [Option.bind_eq_bind, Option.some_bind]
    rw [show (pre ++ [(c >>> 12 &&& 0x0F) % 256 ||| TAG_THREE_B]) ++
          ((c >>> 6 &&& 0x3F) % 256 ||| TAG_CONT) :: m2 :: post =
          (pre ++ [(c >>> 12 &&& 0x0F) % 256 ||| TAG_THREE_B,
                   (c >>> 6 &&& 0x3F) % 256 ||| TAG_CONT]) ++ m2 :: post by simp,
        show pre.length + 2 =
          (pre ++ [(c >>> 12 &&& 0x0F) % 256 ||| TAG_THREE_B,
                   (c >>> 6 &&& 0x3F) % 256 ||| TAG_CONT]).length by simp,
        writeByte_at]
    simp
  · -- 4-byte arm
    obtain ⟨m0, m1, m2, m3, rfl⟩ := length_eq_four hmid
    rw [show pre ++ [m0, m1, m2, m3] ++ post = pre ++ m0 :: m1 :: m2 :: m3 :: post by simp,
        Nat.add_zero, writeByte_at]
    simp only [Option.bind_eq_bind, Option.some_bind]
    rw [show pre ++ ((c >>> 18 &&& 0x07) % 256 ||| TAG_FOUR_B) :: m1 :: m2 :: m3 :: post =
          (pre ++ [(c >>> 18 &&& 0x07) % 256 ||| TAG_FOUR_B]) ++ m1 :: m2 :: m3 :: post by simp,
        show pre.length + 1 =
          (pre ++ [(c >>> 18 &&& 0x07) % 256 ||| TAG_FOUR_B]).length by simp,
        writeByte_at]
    simp only [Option.bind_eq_bind, Option.some_bind]
    rw [show (pre ++ [(c >>> 18 &&& 0x07) % 256 ||| TAG_FOUR_B]) ++
          ((c >>> 12 &&& 0x3F) % 256 ||| TAG_CONT) :: m2 :: m3 :: post =
          (pre ++ [(c >>> 18 &&& 0x07) % 256 ||| TAG_FOUR_B,
                   (c >>> 12 &&& 0x3F) % 256 ||| TAG_CONT]) ++ m2 :: m3 :: post by simp,
        show pre.length + 2 =
          (pre ++ [(c >>> 18 &&& 0x07) % 256 ||| TAG_FOUR_B,
                   (c >>> 12 &&& 0x3F) % 256 ||| TAG_CONT]).length by simp,
        writeByte_at]
    simp only [Option.bind_eq_bind, Option.some_bind]
    rw [show (pre ++ [(c >>> 18 &&& 0x07) % 256 ||| TAG_FOUR_B,
                      (c >>> 12 &&& 0x3F) % 256 ||| TAG_CONT]) ++
          ((c >>> 6 &&& 0x3F) % 256 ||| TAG_CONT) :: m3 :: post =
          (pre ++ [(c >>> 18 &&& 0x07) % 256 ||| TAG_FOUR_B,
                   (c >>> 12 &&& 0x3F) % 256 ||| TAG_CONT,
                   (c >>> 6 &&& 0x3F) % 256 ||| TAG_CONT]) ++ m3 :: post by simp,
        show pre.length + 3 =
          (pre ++ [(c >>> 18 &&& 0x07) % 256 ||| TAG_FOUR_B,
                   (c >>> 12 &&& 0x3F) % 256 ||| TAG_CONT,
                   (c >>> 6 &&& 0x3F) % 256 ||| TAG_CONT]).length by simp,
        writeByte_at]
    simp

/-! ### The encode loop as a whole -/

lemma utf8Flat_cons (c : Nat) (rest : List Nat) :
    utf8Flat (c :: rest) = utf8b c ++ utf8Flat rest := rfl

lemma flatLen_cons (c : Nat) (rest : List Nat) :
    flatLen (c :: rest) = len_utf8 c + flatLen rest := by
  simp [flatLen]

lemma LEN_aux (cs : List Nat) :
    ∀ a : Nat, cs.foldl (fun acc c => acc + len_utf8 c) a = a + flatLen cs := by
  induction cs with
  | nil => intro a; simp [flatLen]
  | cons c rest ih => intro a; simp [List.foldl, flatLen_cons, ih, Nat.add_assoc]

/-- The length pass computes the sum of the per-character UTF-8 lengths. -/
lemma LEN_eq_flatLen (cs : List Nat) : LEN cs = flatLen cs := by
  unfold LEN
  rw [LEN_aux]
  omega

lemma utf8Flat_length (cs : List Nat) : (utf8Flat cs).length = flatLen cs := by
  induction cs with
  | nil => rfl
  | cons c rest ih => simp [utf8Flat_cons, flatLen_cons, utf8b_length, ih]

/-- Loop invariant of the encode pass, in closed form: started at offset
`pre.length` on a buffer `pre ++ post` with enough room, the loop writes the
concatenated UTF-8 bytes of `cs` right after `pre`, leaves the rest of the
buffer as it was, never writes out of bounds, and ends with
`offset = pre.length + flatLen cs`. -/
lemma encodeLoop_spliced (cs : List Nat) : ∀ (pre post : List Nat),
    flatLen cs ≤ post.length →
    encodeLoop (pre ++ post) pre.length cs =
      some (pre ++ utf8Flat cs ++ post.drop (flatLen cs), pre.length + flatLen cs) := by
  induction cs with
  | nil =>
      intro pre post _
      simp [encodeLoop, utf8Flat, flatLen]
  | cons c rest ih =>
      intro pre post hlen
      have hflat := flatLen_cons c rest
      obtain ⟨mid, post', rfl, hmid⟩ :
          ∃ mid post', post = mid ++ post' ∧ mid.length = len_utf8 c := by
        refine ⟨post.take (len_utf8 c), post.drop (len_utf8 c),
          (List.take_append_drop _ _).symm, ?_⟩
        rw [List.length_take]
        have h1 : len_utf8 c ≤ post.length := by omega
        omega
      have hpost' : flatLen rest ≤ post'.length := by
        rw [List.length_append] at hlen
        omega
      rw [show pre ++ (mid ++ post') = pre ++ mid ++ post' from
            (List.append_assoc pre mid post').symm]
      simp only [encodeLoop]
      rw [encodeAt_spliced pre mid post' c hmid]
      simp only [Option.bind_eq_bind, Option.some_bind]
      rw [show pre.length + len_utf8 c = (pre ++ utf8b c).length by simp [utf8b_length],
          ih (pre ++ utf8b c) post' hpost']
      rw [utf8Flat_cons, hflat, ← hmid, List.drop_append]
      simp [List.append_assoc, utf8b_length, hmid, Nat.add_assoc]

/-- The macro always succeeds, and its output is exactly the concatenation
of the per-character UTF-8 byte sequences. -/
lemma chstr_eq (cs : List Nat) : chstr cs = some (utf8Flat cs) := by
  unfold chstr
  have h := encodeLoop_spliced cs [] (List.replicate (LEN cs) 0)
    (by simp [LEN_eq_flatLen])
  simp only [List.nil_append, List.length_nil, Nat.zero_add] at h
  rw [h]
  have hd : (List.replicate (LEN cs) 0).drop (flatLen cs) = [] := by
    apply List.drop_eq_nil_of_le
    simp [LEN_eq_flatLen]
  rw [hd]
  simp

/-! ### Decoding the produced bytes -/

lemma decodeStep_shrinks {b0 c : Nat} {rest rest2 : List Nat}
    (h : decodeStep b0 rest = some (c, rest2)) : rest2.length ≤ rest.length := by
  unfold decodeStep at h
  repeat' split at h
  all_goals simp_all
  all_goals omega

/-- Any fuel at least the byte count gives the same decoding result. -/
lemma decodeLoop_fuel : ∀ (fuel : Nat) (bs : List Nat) (fuel2 : Nat),
    bs.length ≤ fuel → bs.length ≤ fuel2 →
    decodeLoop fuel bs = decodeLoop fuel2 bs := by
  intro fuel
  induction fuel with
  | zero =>
      intro bs fuel2 h1 _
      have hbs : bs = [] := List.eq_nil_of_length_eq_zero (by omega)
      subst hbs
      simp [decodeLoop]
  | succ fuel ih =>
      intro bs fuel2 h1 h2
      cases bs with
      | nil => simp [decodeLoop]
      | cons b0 rest =>
          cases fuel2 with
          | zero =>
              simp only [List.length_cons] at h2
              omega
          | succ f2 =>
              simp only [decodeLoop]
              cases hstep : decodeStep b0 rest with
              | none => rfl
              | some p =>
                  obtain ⟨c, rest2⟩ := p
                  have hs := decodeStep_shrinks hstep
                  simp only [List.length_cons] at h1 h2
                  simp only []
                  rw [ih rest2 f2 (by omega) (by omega)]

/-- Decoding the UTF-8 bytes of one scalar value recovers it. -/
lemma decode_utf8b (c : Nat) (h : IsScalar c) (tail : List Nat) :
    decodeUtf8 (utf8b c ++ tail) = (decodeUtf8 tail).map (fun cs => c :: cs) := by
  obtain ⟨h1, h2⟩ := h
  unfold decodeUtf8
  rcases Nat.lt_or_ge c 0x80 with hr | hr1
  · -- 1-byte form
    rw [utf8b_one hr]
    simp only [List.cons_append, List.nil_append, List.append_eq, List.length_cons, decodeLoop]
    have hstep : decodeStep c tail = some (c, tail) := by
      unfold decodeStep
      rw [if_pos (by omega : c < 0x80)]
    rw [hstep]
    simp only []
    cases decodeLoop tail.length tail <;> rfl
  · rcases Nat.lt_or_ge c 0x800 with hr | hr2
    · -- 2-byte form
      rw [utf8b_two hr1 hr]
      simp only [List.cons_append, List.nil_append, List.append_eq, List.length_cons, decodeLoop]
      have hstep : decodeStep (192 + c / 64) ((128 + c % 64) :: tail) = some (c, tail) := by
        unfold decodeStep
        rw [if_neg (by omega), if_neg (by omega), if_pos (by omega : 192 + c / 64 < 0xE0)]
        simp only []
        rw [if_pos (by constructor <;> omega)]
        rw [show (192 + c / 64 - 0xC0) * 64 + (128 + c % 64 - 0x80) = c by omega]
        rw [if_pos (by omega : 0x80 ≤ c)]
      rw [hstep]
      simp only []
      rw [decodeLoop_fuel (tail.length + 1) tail tail.length (by omega) (by omega)]
      cases decodeLoop tail.length tail <;> rfl
    · rcases Nat.lt_or_ge c 0x10000 with hr | hr3
      · -- 3-byte form
        rw [utf8b_three hr2 hr]
        simp only [List.cons_append, List.nil_append, List.append_eq, List.length_cons, decodeLoop]
        have hstep : decodeStep (224 + c / 4096) ((128 + c / 64 % 64) :: (128 + c % 64) :: tail) =
            some (c, tail) := by
          unfold decodeStep
          rw [if_neg (by omega), if_neg (by omega), if_neg (by omega),
              if_pos (by omega : 224 + c / 4096 < 0xF0)]
          simp only []
          rw [if_pos (by refine ⟨⟨?_, ?_⟩, ?_, ?_⟩ <;> omega)]
          rw [show (224 + c / 4096 - 0xE0) * 4096 + (128 + c / 64 % 64 - 0x80) * 64 +
                (128 + c % 64 - 0x80) = c by omega]
          rw [if_pos (⟨by omega, h2⟩ : 0x800 ≤ c ∧ (c < 0xD800 ∨ 0xDFFF < c))]
        rw [hstep]
        simp only []
        rw [decodeLoop_fuel (tail.length + 1 + 1) tail tail.length (by omega) (by omega)]
        cases decodeLoop tail.length tail <;> rfl
      · -- 4-byte form
        rw [utf8b_four hr3 h1]
        simp only [List.cons_append, List.nil_append, List.append_eq, List.length_cons, decodeLoop]
        have hstep : decodeStep (240 + c / 262144)
            ((128 + c / 4096 % 64) :: (128 + c / 64 % 64) :: (128 + c % 64) :: tail) =
            some (c, tail) := by
          unfold decodeStep
          rw [if_neg (by omega), if_neg (by omega), if_neg (by omega), if_neg (by omega),
              if_pos (by omega : 240 + c / 262144 < 0xF8)]
          simp only []
          rw [if_pos (by refine ⟨⟨?_, ?_⟩, ⟨?_, ?_⟩, ?_, ?_⟩ <;> omega)]
          rw [show (240 + c / 262144 - 0xF0) * 262144 + (128 + c / 4096 % 64 - 0x80) * 4096 +
                (128 + c / 64 % 64 - 0x80) * 64 + (128 + c % 64 - 0x80) = c by omega]
          rw [if_pos (⟨by omega, by omega⟩ : 0x10000 ≤ c ∧ c ≤ 0x10FFFF)]
        rw [hstep]
        simp only []
        rw [decodeLoop_fuel (tail.length + 1 + 1 + 1) tail tail.length (by omega) (by omega)]
        cases decodeLoop tail.length tail <;> rfl

/-- Decoding the concatenated bytes of a valid sequence recovers it. -/
lemma decode_utf8Flat (cs : List Nat) (h : ∀ c ∈ cs, IsScalar c) :
    ∀ tail, decodeUtf8 (utf8Flat cs ++ tail) = (decodeUtf8 tail).map (fun ds => cs ++ ds) := by
  induction cs with
  | nil =>
      intro tail
      simp [utf8Flat]
  | cons c rest ih =>
      intro tail
      rw [utf8Flat_cons, List.append_assoc,
          decode_utf8b c (h c (by simp)),
          ih (fun d hd => h d (by simp [hd]))]
      cases decodeUtf8 tail <;> simp

/-- Round-trip, as a reusable lemma: the macro succeeds and the strict
decoder recovers the input sequence exactly. -/
lemma roundtrip_lemma (cs : List Nat) (h : ∀ c ∈ cs, IsScalar c) :
    (chstr cs).bind decodeUtf8 = some cs := by
  rw [chstr_eq, Option.some_bind]
  have hd := decode_utf8Flat cs h []
  rw [List.append_nil] at hd
  rw [hd]
  simp [decodeUtf8, decodeLoop]

/-! ### The write trace of the encode pass -/

lemma armIndices_eq_range' (offset len : Nat)
    (h : len = 1 ∨ len = 2 ∨ len = 3 ∨ len = 4) :
    armIndices offset len = List.range' offset len := by
  rcases h with h | h | h | h <;> subst h <;> rfl

lemma traceLoop_eq_range' (cs : List Nat) : ∀ offset : Nat,
    traceLoop offset cs = List.range' offset (flatLen cs) := by
  induction cs with
  | nil =>
      intro offset
      simp [traceLoop, flatLen]
  | cons c rest ih =>
      intro offset
      simp only [traceLoop]
      rw [armIndices_eq_range' offset _ (len_utf8_cases c), ih (offset + len_utf8 c),
          flatLen_cons]
      have h := List.range'_append offset (len_utf8 c) (flatLen rest) 1
      rw [one_mul] at h
      rw [h, Nat.add_comm (flatLen rest) (len_utf8 c)]

/-- Every buffer index is written exactly once, in increasing order: the
write trace of the encode pass is `0, 1, …, LEN - 1`. -/
lemma traceLoop_eq_range (cs : List Nat) :
    traceLoop 0 cs = List.range (LEN cs) := by
  rw [traceLoop_eq_range' cs 0, LEN_eq_flatLen, List.range_eq_range']

/-! ### Shortest-form (minimality) facts -/

/-- The largest number of scalar values representable by a UTF-8 sequence
of `k` bytes (0 outside 1–4): the boundary of each encoded-length class. -/
def utf8Capacity (k : Nat) : Nat :=
  match k with
  | 1 => 0x80
  | 2 => 0x800
  | 3 => 0x10000
  | 4 => 0x110000
  | _ => 0

lemma len_utf8_shortest (c : Nat) (h : IsScalar c) :
    c < utf8Capacity (len_utf8 c) ∧
      (1 < len_utf8 c → utf8Capacity (len_utf8 c - 1) ≤ c) := by
  obtain ⟨h1, _⟩ := h
  rcases Nat.lt_or_ge c 0x80 with hr | hr1
  · rw [len_utf8_one hr]
    exact ⟨by simpa [utf8Capacity] using hr, by omega⟩
  · rcases Nat.lt_or_ge c 0x800 with hr | hr2
    · rw [len_utf8_two hr1 hr]
      exact ⟨by simpa [utf8Capacity] using hr, fun _ => by simpa [utf8Capacity] using hr1⟩
    · rcases Nat.lt_or_ge c 0x10000 with hr | hr3
      · rw [len_utf8_three hr2 hr]
        exact ⟨by simpa [utf8Capacity] using hr, fun _ => by simpa [utf8Capacity] using hr2⟩
      · rw [len_utf8_four hr3]
        exact ⟨by simp [utf8Capacity]; omega, fun _ => by simpa [utf8Capacity] using hr3⟩

/-! ### Agreement with the spec's wording -/

lemma lor_cont' (a : Nat) (h : a < 64) : 0b10000000 ||| a = 128 + a := by
  rw [Nat.lor_comm]
  have hl := lor_cont a h
  unfold TAG_CONT at hl
  exact hl

lemma lor_two' (a : Nat) (h : a < 32) : 0b11000000 ||| a = 192 + a := by
  rw [Nat.lor_comm]
  have hl := lor_two a h
  unfold TAG_TWO_B at hl
  exact hl

lemma lor_three' (a : Nat) (h : a < 16) : 0b11100000 ||| a = 224 + a := by
  rw [Nat.lor_comm]
  have hl := lor_three a h
  unfold TAG_THREE_B at hl
  exact hl

lemma lor_four' (a : Nat) (h : a < 8) : 0b11110000 ||| a = 240 + a := by
  rw [Nat.lor_comm]
  have hl := lor_four a h
  unfold TAG_FOUR_B at hl
  exact hl

/-- The bytes the encode pass emits for one character agree with the
spec's tagging scheme, stated word for word as `utf8BytesSpec`. -/
lemma utf8b_eq_spec (c : Nat) (h : IsScalar c) : utf8b c = utf8BytesSpec c := by
  obtain ⟨h1, _⟩ := h
  unfold utf8BytesSpec
  rcases Nat.lt_or_ge c 0x80 with hr | hr1
  · rw [utf8b_one hr, if_pos (by omega : c ≤ 0x7F)]
  · rcases Nat.lt_or_ge c 0x800 with hr | hr2
    · rw [utf8b_two hr1 hr, if_neg (by omega), if_pos (by omega : c ≤ 0x7FF)]
      simp only [shr_6, and_31, and_63]
      rw [Nat.mod_eq_of_lt (show c / 64 < 32 by omega)]
      rw [lor_two' _ (by omega), lor_cont' _ (by omega)]
    · rcases Nat.lt_or_ge c 0x10000 with hr | hr3
      · rw [utf8b_three hr2 hr, if_neg (by omega), if_neg (by omega),
            if_pos (by omega : c ≤ 0xFFFF)]
        simp only [shr_6, shr_12, and_15, and_63]
        rw [Nat.mod_eq_of_lt (show c / 4096 < 16 by omega)]
        rw [lor_three' _ (by omega), lor_cont' (c / 64 % 64) (by omega),
            lor_cont' _ (by omega)]
      · rw [utf8b_four hr3 h1, if_neg (by omega), if_neg (by omega), if_neg (by omega)]
        simp only [shr_6, shr_12, shr_18, and_7, and_63]
        rw [Nat.mod_eq_of_lt (show c / 262144 < 8 by omega)]
        rw [lor_four' _ (by omega), lor_cont' (c / 4096 % 64) (by omega),
            lor_cont' (c / 64 % 64) (by omega), lor_cont' _ (by omega)]

lemma flatLen_append (xs ys : List Nat) :
    flatLen (xs ++ ys) = flatLen xs + flatLen ys := by
  simp [flatLen]

/-! ## Claim theorems -/

/-- C1: for every sequence of Unicode scalar values, decoding the byte
buffer produced by the `chstr!` encoder as UTF-8 yields exactly the
original sequence of scalar values, in the same order, with no extra or
missing bytes (the strict decoder consumes the whole buffer and returns
exactly the input). -/
theorem chstr_roundtrip (cs : List Nat) (h : ∀ c ∈ cs, IsScalar c) :
    (chstr cs).bind decodeUtf8 = some cs :=
  roundtrip_lemma cs h

theorem chstr_roundtrip_witness :
    (chstr [0x61, 0xA2, 0x20AC, 0x1F600]).bind decodeUtf8 =
      some [0x61, 0xA2, 0x20AC, 0x1F600] :=
  chstr_roundtrip [0x61, 0xA2, 0x20AC, 0x1F600] (by decide)

/-- C2: for every input sequence, the length of the produced byte buffer
equals the sum over the sequence of each scalar value's individual UTF-8
encoded length. -/
theorem chstr_length_additive (cs : List Nat) :
    (chstr cs).map List.length = some ((cs.map len_utf8).sum) := by
  rw [chstr_eq]
  simp [utf8Flat_length, flatLen]

/-- C3: the per-scalar encoded length used by the length pass follows the
standard rule (≤ 0x7F → 1 byte, ≤ 0x7FF → 2, ≤ 0xFFFF → 3,
≤ 0x10FFFF → 4), stated word for word as `utf8LenSpec`. -/
theorem len_pass_matches_spec (c : Nat) (h : IsScalar c) :
    len_utf8 c = utf8LenSpec c := by
  obtain ⟨h1, _⟩ := h
  unfold len_utf8 utf8LenSpec
  split_ifs <;> omega

theorem len_pass_matches_spec_witness :
    IsScalar 0x1F600 ∧ len_utf8 0x1F600 = utf8LenSpec 0x1F600 :=
  ⟨by decide, len_pass_matches_spec 0x1F600 (by decide)⟩

/-- C4: for every scalar value, the bytes written by the encode pass match
the standard UTF-8 tagging scheme exactly, stated word for word as
`utf8BytesSpec` (leading tag byte from the high bits, `0b10xxxxxx`
continuations from the lower 6-bit groups). -/
theorem encode_pass_matches_spec (c : Nat) (pre mid post : List Nat)
    (h : IsScalar c) (hmid : mid.length = len_utf8 c) :
    encodeAt (pre ++ mid ++ post) pre.length c =
      some (pre ++ utf8BytesSpec c ++ post) := by
  rw [encodeAt_spliced pre mid post c hmid, utf8b_eq_spec c h]

theorem encode_pass_matches_spec_witness :
    IsScalar 0x20AC ∧ ([0, 0, 0] : List Nat).length = len_utf8 0x20AC ∧
      encodeAt ([] ++ [0, 0, 0] ++ []) ([] : List Nat).length 0x20AC =
        some ([] ++ utf8BytesSpec 0x20AC ++ []) :=
  ⟨by decide, by decide,
    encode_pass_matches_spec 0x20AC [] [0, 0, 0] [] (by decide) (by decide)⟩

/-- C5: the produced byte buffer contains no overlong encoding: the strict
decoder `decodeUtf8`, which rejects overlong forms, accepts the buffer and
returns the input, and every scalar value of the input is encoded in the
shortest valid UTF-8 form for its magnitude (it fits its own length class
`utf8Capacity (len_utf8 c)` and does not fit the next shorter one). -/
theorem chstr_minimal_utf8 (cs : List Nat) (c : Nat)
    (h : ∀ d ∈ cs, IsScalar d) (hc : c ∈ cs) :
    (chstr cs).bind decodeUtf8 = some cs ∧
      c < utf8Capacity (len_utf8 c) ∧
      (1 < len_utf8 c → utf8Capacity (len_utf8 c - 1) ≤ c) := by
  obtain ⟨m1, m2⟩ := len_utf8_shortest c (h c hc)
  exact ⟨roundtrip_lemma cs h, m1, m2⟩

theorem chstr_minimal_utf8_witness :
    (chstr [0x1F600]).bind decodeUtf8 = some [0x1F600] ∧
      0x1F600 < utf8Capacity (len_utf8 0x1F600) ∧
      utf8Capacity (len_utf8 0x1F600 - 1) ≤ 0x1F600 := by
  have t := chstr_minimal_utf8 [0x1F600] 0x1F600 (by decide) (by decide)
  exact ⟨t.1, t.2.1, t.2.2 (by decide)⟩

/-- C6: encoding the empty sequence produces a zero-length text value:
the length pass gives 0 and the buffer is empty. -/
theorem chstr_empty_input : chstr [] = some [] ∧ LEN [] = 0 :=
  ⟨rfl, rfl⟩

/-- C7: the encoder produces the exact boundary-case byte patterns of the
spec: `['a']` ↦ `[0x61]` (length 1), U+00A2 ↦ `[0xC2, 0xA2]` (length 2),
U+20AC ↦ `[0xE2, 0x82, 0xAC]` (length 3), U+1F600 ↦
`[0xF0, 0x9F, 0x98, 0x80]` (length 4), and `['a','b','c']` ↦
`[0x61, 0x62, 0x63]`, the bytes of the text `"abc"`. -/
theorem chstr_boundary_cases :
    chstr [0x61] = some [0x61] ∧
    (chstr [0x61]).map List.length = some 1 ∧
    chstr [0xA2] = some [0xC2, 0xA2] ∧
    (chstr [0xA2]).map List.length = some 2 ∧
    chstr [0x20AC] = some [0xE2, 0x82, 0xAC] ∧
    (chstr [0x20AC]).map List.length = some 3 ∧
    chstr [0x1F600] = some [0xF0, 0x9F, 0x98, 0x80] ∧
    (chstr [0x1F600]).map List.length = some 4 ∧
    chstr [0x61, 0x62, 0x63] = some [0x61, 0x62, 0x63] ∧
    "abc".data.map (fun ch => ch.toNat) = [0x61, 0x62, 0x63] := by
  refine ⟨?_, ?_, ?_, ?_, ?_, ?_, ?_, ?_, ?_, ?_⟩ <;> decide

/-- C8: for valid scalar input the `unreachable!()` wildcard arm of the
encode pass is never reached: the scrutinised length is always 1, 2, 3
or 4, and `encodeAt` (whose wildcard arm is modelled as `none`) succeeds
on a buffer of the character's length. -/
theorem unreachable_arm_never_hit (c : Nat) (h : IsScalar c) :
    (len_utf8 c = 1 ∨ len_utf8 c = 2 ∨ len_utf8 c = 3 ∨ len_utf8 c = 4) ∧
      (encodeAt (List.replicate (len_utf8 c) 0) 0 c).isSome = true := by
  refine ⟨len_utf8_cases c, ?_⟩
  have hs := encodeAt_spliced [] (List.replicate (len_utf8 c) 0) [] c (by simp)
  simp only [List.nil_append, List.append_nil, List.length_nil] at hs
  rw [hs]
  rfl

theorem unreachable_arm_never_hit_witness :
    IsScalar 0x61 ∧
      ((len_utf8 0x61 = 1 ∨ len_utf8 0x61 = 2 ∨ len_utf8 0x61 = 3 ∨ len_utf8 0x61 = 4) ∧
        (encodeAt (List.replicate (len_utf8 0x61) 0) 0 0x61).isSome = true) :=
  ⟨by decide, unreachable_arm_never_hit 0x61 (by decide)⟩

/-- C9: the encoding is deterministic and side-effect free: it is a pure
function of the input sequence, so equal inputs give equal byte buffers. -/
theorem chstr_deterministic (cs1 cs2 : List Nat) (h : cs1 = cs2) :
    chstr cs1 = chstr cs2 := by
  rw [h]

theorem chstr_deterministic_witness :
    ([0x61, 0x62] : List Nat) = [0x61, 0x62] ∧
      chstr [0x61, 0x62] = chstr [0x61, 0x62] :=
  ⟨rfl, chstr_deterministic [0x61, 0x62] [0x61, 0x62] rfl⟩

/-- C10: loop invariant of the encode pass.  For any split of the input
into a processed prefix `xs` and a remainder `ys`: after processing `xs`
the write offset equals the sum of the UTF-8 lengths of `xs` (and the
prefix of the buffer holds exactly the bytes of `xs`, the rest still
zero); the whole loop succeeds (so every `buf[offset + k]` write was in
bounds); the final buffer has length `LEN`; and the write trace is
exactly the indices `0, 1, …, LEN - 1` in order, so every byte of the
buffer is written exactly once. -/
theorem encode_pass_invariant (xs ys : List Nat) :
    encodeLoop (List.replicate (LEN (xs ++ ys)) 0) 0 xs =
      some (utf8Flat xs ++ List.replicate (LEN (xs ++ ys) - flatLen xs) 0, flatLen xs) ∧
    chstr (xs ++ ys) = some (utf8Flat (xs ++ ys)) ∧
    (utf8Flat (xs ++ ys)).length = LEN (xs ++ ys) ∧
    traceLoop 0 (xs ++ ys) = List.range (LEN (xs ++ ys)) := by
  refine ⟨?_, chstr_eq _, by rw [utf8Flat_length, LEN_eq_flatLen], traceLoop_eq_range _⟩
  have h := encodeLoop_spliced xs [] (List.replicate (LEN (xs ++ ys)) 0)
    (by rw [List.length_replicate, LEN_eq_flatLen, flatLen_append]; omega)
  simp only [List.nil_append, List.length_nil, Nat.zero_add] at h
  rw [h, List.drop_replicate]

end Chstr
